import Mathlib

/-!
Shallow embedding of the Instant-Runoff (Ranked-Choice) Resolver
`calculateRankedChoiceWinner` from `src/App.js` of the rankvote repository,
together with proofs of the specification claims about it.

Modelling conventions:
* Candidate identifiers are an arbitrary type `α` with decidable equality
  (the JS code uses strings; identity is string equality).
* The JS object `firstPlaceVotes` is keyed by candidate; its key order is the
  insertion order, i.e. the order of first occurrence in `currentOptions`
  (`dedupFirst`).  JS numbers are modelled as exact arithmetic: tallies as
  `Nat`, the threshold `totalVotes / 2` as an exact rational (`totalVotes / 2`
  in floating point is exact for all realistic counts, so `ℚ` is faithful).
* `Array.prototype.sort` is stable (ES2019) and is called with the comparator
  `([, a], [, b]) => a - b`, i.e. a stable ascending sort by the count
  component; `List.insertionSort` with `p.2 ≤ q.2` is exactly such a sort.
* A thrown JS exception is modelled as `none`; the infinite `while (true)`
  loop is modelled with fuel, and fuel sufficiency is proved
  (`rcwAux_total_mem`, `rcwAux_fuel_le`), so `none` occurs exactly where the
  JS code throws.
-/

namespace RankVote

variable {α : Type} [DecidableEq α]

/-- Result of a tabulation: a winning candidate, or the sentinel string
`'No votes submitted yet.'` returned when no ballots were submitted. -/
inductive TabulationResult (α : Type) where
  | winner (c : α)
  | noVotes
deriving DecidableEq

/-- Embeds `vote.find(choice => currentOptions.includes(choice))`: the first
entry of the ballot that is a member of the working set. -/
def firstChoice (cur : List α) (vote : List α) : Option α :=
  vote.find? fun c => decide (c ∈ cur)

/-- Embeds the `firstPlaceVotes` tally: the number of ballots whose first
choice within the working set `cur` is the candidate `c`. -/
def firstPlaceVotes (cur : List α) (votes : List (List α)) (c : α) : Nat :=
  votes.countP fun v => decide (firstChoice cur v = some c)

/-- Embeds `const majorityThreshold = totalVotes / 2` (real division). -/
def majorityThreshold (votes : List (List α)) : ℚ :=
  (votes.length : ℚ) / 2

/-- Embeds the majority scan `for (const option of currentOptions) { if
(firstPlaceVotes[option] > majorityThreshold) ... }`: the first working-set
candidate whose tally strictly exceeds the threshold. -/
def roundWinner (cur : List α) (votes : List (List α)) : Option α :=
  cur.find? fun c => decide ((firstPlaceVotes cur votes c : ℚ) > majorityThreshold votes)

/-- Key order of the JS object `firstPlaceVotes`: insertion order, i.e. the
first occurrence of each value in the list. -/
def dedupFirst : List α → List α
  | [] => []
  | x :: xs => x :: (dedupFirst xs).filter fun y => decide (y ≠ x)

/-- Embeds `Object.entries(firstPlaceVotes)`: one `(candidate, tally)` pair
per object key, in key order. -/
def entries (cur : List α) (votes : List (List α)) : List (α × Nat) :=
  (dedupFirst cur).map fun c => (c, firstPlaceVotes cur votes c)

/-- Embeds `Object.entries(firstPlaceVotes).sort(([, a], [, b]) => a - b)`:
a stable ascending sort of the entries by tally. -/
def sortedVotes (cur : List α) (votes : List (List α)) : List (α × Nat) :=
  (entries cur votes).insertionSort fun p q => p.2 ≤ q.2

/-- Embeds `const lowestVoteCount = sortedVotes[0][1]` (the default value 0 is
never used on the non-throwing paths, where `sortedVotes` is non-empty). -/
def lowestVoteCount (cur : List α) (votes : List (List α)) : Nat :=
  (((sortedVotes cur votes).head?).map Prod.snd).getD 0

/-- Embeds `sortedVotes.filter(([, count]) => count === lowestVoteCount)
.map(([option]) => option)`. -/
def eliminatedOptions (cur : List α) (votes : List (List α)) : List α :=
  ((sortedVotes cur votes).filter fun p => p.2 == lowestVoteCount cur votes).map Prod.fst

/-- Embeds `currentOptions.filter(option => !eliminatedOptions.includes(option))`. -/
def nextOptions (cur : List α) (votes : List (List α)) : List α :=
  cur.filter fun c => decide (c ∉ eliminatedOptions cur votes)

/-- The `while (true)` loop of `calculateRankedChoiceWinner`, with fuel.
`none` models a thrown exception (`sortedVotes[0][1]` on an empty entry list)
or fuel exhaustion; fuel `cur.length` is proved sufficient below, so with the
fuel used by `calculateRankedChoiceWinner` every `none` is a genuine throw. -/
def rcwAux (votes : List (List α)) : Nat → List α → Option α
  | 0, _ => none
  | fuel + 1, cur =>
    if cur.length = 1 then cur.head?
    else
      match roundWinner cur votes with
      | some w => some w
      | none =>
        if (sortedVotes cur votes).isEmpty then none
        else if (nextOptions cur votes).isEmpty then (eliminatedOptions cur votes).head?
        else rcwAux votes fuel (nextOptions cur votes)

/-- Embeds `calculateRankedChoiceWinner(options, allVotes)`.  Returns `none`
exactly when the JS function throws (empty catalog with non-empty ballots);
otherwise `some` of the `TabulationResult`. -/
def calculateRankedChoiceWinner (options : List α) (allVotes : List (List α)) :
    Option (TabulationResult α) :=
  if allVotes.isEmpty then some TabulationResult.noVotes
  else (rcwAux allVotes (options.length + 1) options).map TabulationResult.winner

/-! Integer-arithmetic mirror of the majority check.  `Rat` division does not
kernel-reduce, so concrete runs are evaluated through these definitions, which
are proved equal to the rational-threshold originals once and for all. -/

/-- Mirror of `roundWinner` with the threshold comparison moved to `ℕ`. -/
def roundWinnerN (cur : List α) (votes : List (List α)) : Option α :=
  cur.find? fun c => decide (votes.length < 2 * firstPlaceVotes cur votes c)

/-- Mirror of `rcwAux` using `roundWinnerN`. -/
def rcwAuxN (votes : List (List α)) : Nat → List α → Option α
  | 0, _ => none
  | fuel + 1, cur =>
    if cur.length = 1 then cur.head?
    else
      match roundWinnerN cur votes with
      | some w => some w
      | none =>
        if (sortedVotes cur votes).isEmpty then none
        else if (nextOptions cur votes).isEmpty then (eliminatedOptions cur votes).head?
        else rcwAuxN votes fuel (nextOptions cur votes)

/-- Mirror of `calculateRankedChoiceWinner` using `rcwAuxN`. -/
def calculateRankedChoiceWinnerN (options : List α) (allVotes : List (List α)) :
    Option (TabulationResult α) :=
  if allVotes.isEmpty then some TabulationResult.noVotes
  else (rcwAuxN allVotes (options.length + 1) options).map TabulationResult.winner

/-- A tally strictly exceeds the rational threshold `n / 2` exactly when its
double strictly exceeds `n`. -/
theorem cast_gt_half_iff (t n : Nat) : ((t : ℚ) > (n : ℚ) / 2) ↔ n < 2 * t := by
  rw [gt_iff_lt, div_lt_iff₀ (by norm_num : (0 : ℚ) < 2)]
  rw [show ((t : ℚ) * 2 = ((2 * t : Nat) : ℚ)) by push_cast; ring]
  exact_mod_cast Iff.rfl

theorem roundWinnerN_eq (cur : List α) (votes : List (List α)) :
    roundWinnerN cur votes = roundWinner cur votes := by
  unfold roundWinnerN roundWinner majorityThreshold
  congr 1
  funext c
  exact decide_eq_decide.mpr (cast_gt_half_iff _ _).symm

theorem rcwAuxN_eq (votes : List (List α)) :
    ∀ fuel cur, rcwAuxN votes fuel cur = rcwAux votes fuel cur := by
  intro fuel
  induction fuel with
  | zero => intro cur; rfl
  | succ fuel ih =>
    intro cur
    unfold rcwAuxN rcwAux
    rw [roundWinnerN_eq, ih]

theorem calculateRankedChoiceWinnerN_eq (options : List α) (allVotes : List (List α)) :
    calculateRankedChoiceWinnerN options allVotes = calculateRankedChoiceWinner options allVotes := by
  unfold calculateRankedChoiceWinnerN calculateRankedChoiceWinner
  rw [rcwAuxN_eq]

/-! General list helpers. -/

theorem find?_filter_of_imp {β : Type} {p q : β → Bool} (l : List β)
    (h : ∀ a, p a = true → q a = true) :
    (l.filter q).find? p = l.find? p := by
  induction l with
  | nil => rfl
  | cons a l ih =>
    rw [List.filter_cons]
    by_cases hq : q a = true
    · rw [if_pos hq, List.find?_cons, List.find?_cons]
      cases hp : p a
      · exact ih
      · rfl
    · have hp : p a = false := by
        cases hpa : p a
        · rfl
        · exact absurd (h a hpa) hq
      rw [if_neg hq, List.find?_cons, hp, ih]

theorem find?_congr_mem {β : Type} {p q : β → Bool} (l : List β) (h : ∀ a ∈ l, p a = q a) :
    l.find? p = l.find? q := by
  induction l with
  | nil => rfl
  | cons a l ih =>
    rw [List.find?_cons, List.find?_cons, ← h a (List.mem_cons_self a l)]
    cases hp : p a
    · exact ih fun b hb => h b (List.mem_cons_of_mem a hb)
    · rfl

theorem countP_add_countP_le_length {β : Type} {p q : β → Bool} (l : List β)
    (h : ∀ x, ¬(p x = true ∧ q x = true)) :
    l.countP p + l.countP q ≤ l.length := by
  induction l with
  | nil => simp
  | cons a l ih =>
    rw [List.countP_cons, List.countP_cons, List.length_cons]
    cases hp : p a
    · cases hq : q a
      · rw [if_neg Bool.false_ne_true]
        omega
      · rw [if_neg Bool.false_ne_true, if_pos rfl]
        omega
    · cases hq : q a
      · rw [if_pos rfl, if_neg Bool.false_ne_true]
        omega
      · exact absurd ⟨hp, hq⟩ (h a)

/-! Properties of `dedupFirst`. -/

theorem mem_dedupFirst {l : List α} {a : α} : a ∈ dedupFirst l ↔ a ∈ l := by
  induction l with
  | nil => simp [dedupFirst]
  | cons x xs ih =>
    simp only [dedupFirst, List.mem_cons, List.mem_filter, decide_eq_true_eq, ih]
    by_cases h : a = x <;> simp [h]

theorem dedupFirst_ne_nil {l : List α} (h : l ≠ []) : dedupFirst l ≠ [] := by
  cases l with
  | nil => exact absurd rfl h
  | cons x xs => simp [dedupFirst]

theorem find?_dedupFirst (p : α → Bool) (l : List α) :
    (dedupFirst l).find? p = l.find? p := by
  induction l with
  | nil => rfl
  | cons x xs ih =>
    show (x :: _).find? p = _
    rw [List.find?_cons, List.find?_cons]
    cases hp : p x
    · rw [find?_filter_of_imp _ ?_, ih]
      intro a ha
      simp only [decide_eq_true_eq]
      intro hax
      rw [hax] at ha
      rw [ha] at hp
      exact absurd hp (by decide)
    · rfl

/-! Properties of the stable sort and the elimination step. -/

instance : IsTotal (α × Nat) fun p q => p.2 ≤ q.2 := ⟨fun p q => Nat.le_total p.2 q.2⟩

instance : IsTrans (α × Nat) fun p q => p.2 ≤ q.2 := ⟨fun _ _ _ h h' => Nat.le_trans h h'⟩

theorem sortedVotes_perm (cur : List α) (votes : List (List α)) :
    (sortedVotes cur votes).Perm (entries cur votes) :=
  List.perm_insertionSort _ _

theorem sortedVotes_sorted (cur : List α) (votes : List (List α)) :
    List.Sorted (fun p q : α × Nat => p.2 ≤ q.2) (sortedVotes cur votes) :=
  List.sorted_insertionSort _ _

theorem sortedVotes_ne_nil {cur : List α} (votes : List (List α)) (h : cur ≠ []) :
    sortedVotes cur votes ≠ [] := by
  intro hnil
  have hlen := (sortedVotes_perm cur votes).length_eq
  rw [hnil, List.length_nil, entries, List.length_map] at hlen
  exact dedupFirst_ne_nil h (List.length_eq_zero.mp hlen.symm)

/-- Stability of the sort: entries carrying a fixed tally `k` appear in
`sortedVotes` in exactly the order they appear in `entries`. -/
theorem filter_orderedInsert_count {β : Type} (k : Nat) (p : β × Nat) (l : List (β × Nat)) :
    (List.orderedInsert (fun p q => p.2 ≤ q.2) p l).filter (fun q => q.2 == k) =
      if p.2 == k then p :: l.filter (fun q => q.2 == k) else l.filter (fun q => q.2 == k) := by
  induction l with
  | nil => simp [List.orderedInsert, List.filter_cons]
  | cons q qs ih =>
    rw [List.orderedInsert]
    by_cases hpq : p.2 ≤ q.2
    · rw [if_pos hpq, List.filter_cons]
    · rw [if_neg hpq, List.filter_cons]
      have hlt : q.2 < p.2 := Nat.lt_of_not_le hpq
      by_cases hp : (p.2 == k) = true
      · have hq : (q.2 == k) = false := by
          simp only [beq_iff_eq] at hp
          simp only [beq_eq_false_iff_ne, ne_eq]
          omega
        rw [hq, if_neg Bool.false_ne_true, ih, if_pos hp, if_pos hp, List.filter_cons, hq,
          if_neg Bool.false_ne_true]
      · rw [ih, if_neg hp, if_neg hp, List.filter_cons]

theorem filter_sortedVotes (cur : List α) (votes : List (List α)) (k : Nat) :
    (sortedVotes cur votes).filter (fun q => q.2 == k) =
      (entries cur votes).filter (fun q => q.2 == k) := by
  unfold sortedVotes
  generalize entries cur votes = l
  induction l with
  | nil => rfl
  | cons p ps ih =>
    rw [List.insertionSort, filter_orderedInsert_count, ih, List.filter_cons]

theorem lowestVoteCount_le {cur : List α} (votes : List (List α)) (h : cur ≠ []) :
    ∀ c ∈ cur, lowestVoteCount cur votes ≤ firstPlaceVotes cur votes c := by
  intro c hc
  have hscons := List.exists_cons_of_ne_nil (sortedVotes_ne_nil votes h)
  obtain ⟨hd, tl, hs⟩ := hscons
  have hlow : lowestVoteCount cur votes = hd.2 := by
    unfold lowestVoteCount
    rw [hs]
    rfl
  have hmem : (c, firstPlaceVotes cur votes c) ∈ sortedVotes cur votes := by
    rw [(sortedVotes_perm cur votes).mem_iff]
    exact List.mem_map_of_mem _ (mem_dedupFirst.mpr hc)
  rw [hs] at hmem
  rcases List.mem_cons.mp hmem with heq | htl
  · rw [hlow, ← heq]
  · have hsorted := sortedVotes_sorted cur votes
    rw [hs] at hsorted
    have := List.rel_of_sorted_cons hsorted _ htl
    rw [hlow]
    exact this

theorem lowestVoteCount_attained {cur : List α} (votes : List (List α)) (h : cur ≠ []) :
    ∃ c ∈ cur, firstPlaceVotes cur votes c = lowestVoteCount cur votes := by
  obtain ⟨hd, tl, hs⟩ := List.exists_cons_of_ne_nil (sortedVotes_ne_nil votes h)
  have hlow : lowestVoteCount cur votes = hd.2 := by
    unfold lowestVoteCount
    rw [hs]
    rfl
  have hmem : hd ∈ entries cur votes := by
    rw [← (sortedVotes_perm cur votes).mem_iff, hs]
    exact List.mem_cons_self _ _
  obtain ⟨c, hc, hcd⟩ := List.mem_map.mp hmem
  exact ⟨c, mem_dedupFirst.mp hc, by rw [hlow, ← hcd]⟩

/-- The eliminated candidates are exactly the working-set candidates whose
tally equals the round minimum, listed in catalog (first-occurrence) order:
the stable sort cannot reorder entries that share the minimum tally. -/
theorem eliminatedOptions_eq (cur : List α) (votes : List (List α)) :
    eliminatedOptions cur votes =
      (dedupFirst cur).filter fun c =>
        firstPlaceVotes cur votes c == lowestVoteCount cur votes := by
  unfold eliminatedOptions
  rw [filter_sortedVotes, entries, List.filter_map, List.map_map]
  have h1 : (Prod.fst ∘ fun c => (c, firstPlaceVotes cur votes c)) = @id α := rfl
  have h2 : ((fun q : α × Nat => q.2 == lowestVoteCount cur votes) ∘
      fun c => (c, firstPlaceVotes cur votes c)) =
      fun c => firstPlaceVotes cur votes c == lowestVoteCount cur votes := rfl
  rw [h1, h2, List.map_id]

theorem mem_eliminatedOptions {cur : List α} {votes : List (List α)} {c : α} :
    c ∈ eliminatedOptions cur votes ↔
      c ∈ cur ∧ firstPlaceVotes cur votes c = lowestVoteCount cur votes := by
  rw [eliminatedOptions_eq, List.mem_filter, mem_dedupFirst, beq_iff_eq]

theorem nextOptions_eq (cur : List α) (votes : List (List α)) :
    nextOptions cur votes =
      cur.filter fun c =>
        decide (firstPlaceVotes cur votes c ≠ lowestVoteCount cur votes) := by
  unfold nextOptions
  apply List.filter_congr
  intro c hc
  apply decide_eq_decide.mpr
  rw [mem_eliminatedOptions]
  simp [hc]

theorem nextOptions_subset (cur : List α) (votes : List (List α)) :
    nextOptions cur votes ⊆ cur :=
  fun _ ha => List.mem_of_mem_filter ha

theorem nextOptions_length_lt {cur : List α} (votes : List (List α)) (h : cur ≠ []) :
    (nextOptions cur votes).length < cur.length := by
  unfold nextOptions
  rw [List.length_filter_lt_length_iff_exists]
  obtain ⟨c, hc, hfpv⟩ := lowestVoteCount_attained votes h
  refine ⟨c, hc, ?_⟩
  simp only [decide_eq_true_eq, not_not]
  exact mem_eliminatedOptions.mpr ⟨hc, hfpv⟩

/-- The eliminated list is non-empty whenever the working set is, and its head
is the first entry of the stable sort (tally-ascending, then catalog order). -/
theorem eliminatedOptions_cons {cur : List α} (votes : List (List α)) (h : cur ≠ []) :
    ∃ w tl, eliminatedOptions cur votes = w :: tl ∧
      (sortedVotes cur votes).head? = some (w, lowestVoteCount cur votes) := by
  obtain ⟨⟨w, n⟩, rest, hs⟩ := List.exists_cons_of_ne_nil (sortedVotes_ne_nil votes h)
  have hlow : lowestVoteCount cur votes = n := by
    unfold lowestVoteCount
    rw [hs]
    rfl
  have helim : eliminatedOptions cur votes =
      w :: (rest.filter fun p => p.2 == lowestVoteCount cur votes).map Prod.fst := by
    unfold eliminatedOptions
    rw [hs, List.filter_cons, if_pos (by simp [hlow]), List.map_cons]
  exact ⟨w, _, helim, by rw [hs, hlow]; rfl⟩

/-! Core properties of the elimination loop. -/

theorem sortedVotes_not_isEmpty {cur : List α} (votes : List (List α)) (h : cur ≠ []) :
    ¬((sortedVotes cur votes).isEmpty = true) := by
  rw [List.isEmpty_iff]
  exact sortedVotes_ne_nil votes h

/-- With fuel at least `|cur|`, the loop on a non-empty working set always
returns a candidate, and that candidate belongs to the working set. -/
theorem rcwAux_total_mem (votes : List (List α)) :
    ∀ fuel cur, cur ≠ [] → cur.length ≤ fuel →
      ∃ w, rcwAux votes fuel cur = some w ∧ w ∈ cur := by
  intro fuel
  induction fuel with
  | zero =>
    intro cur hne hlen
    exact absurd (List.length_eq_zero.mp (Nat.le_zero.mp hlen)) hne
  | succ fuel ih =>
    intro cur hne hlen
    rw [rcwAux]
    by_cases h1 : cur.length = 1
    · refine ⟨cur.head hne, ?_, List.head_mem hne⟩
      rw [if_pos h1, List.head?_eq_head hne]
    · rw [if_neg h1]
      cases hw : roundWinner cur votes with
      | some w =>
        exact ⟨w, rfl, List.mem_of_find?_eq_some hw⟩
      | none =>
        rw [if_neg (sortedVotes_not_isEmpty votes hne)]
        by_cases hn : (nextOptions cur votes).isEmpty = true
        · obtain ⟨w, tl, helim, _⟩ := eliminatedOptions_cons votes hne
          refine ⟨w, ?_, (mem_eliminatedOptions.mp (helim ▸ List.mem_cons_self w tl)).1⟩
          rw [if_pos hn, helim]
          rfl
        · have hnne : nextOptions cur votes ≠ [] := fun hnil => hn (by rw [hnil]; rfl)
          have hlt := nextOptions_length_lt votes hne
          obtain ⟨w, hrec, hmem⟩ := ih (nextOptions cur votes) hnne (by omega)
          exact ⟨w, by rw [if_neg hn, hrec], nextOptions_subset cur votes hmem⟩

/-- Fuel irrelevance: any fuel of at least `|cur|` gives the same result, so
the loop stabilizes after at most `|cur|` iterations. -/
theorem rcwAux_fuel_le (votes : List (List α)) :
    ∀ f1 f2 cur, cur ≠ [] → cur.length ≤ f1 → f1 ≤ f2 →
      rcwAux votes f1 cur = rcwAux votes f2 cur := by
  intro f1
  induction f1 with
  | zero =>
    intro f2 cur hne hlen _
    exact absurd (List.length_eq_zero.mp (Nat.le_zero.mp hlen)) hne
  | succ f1 ih =>
    intro f2 cur hne hlen hle
    obtain ⟨f2', rfl⟩ : ∃ f2', f2 = f2' + 1 := ⟨f2 - 1, by omega⟩
    rw [rcwAux, rcwAux]
    by_cases h1 : cur.length = 1
    · rw [if_pos h1, if_pos h1]
    · rw [if_neg h1, if_neg h1]
      cases hw : roundWinner cur votes with
      | some w => rfl
      | none =>
        show (if (sortedVotes cur votes).isEmpty = true then none
            else if (nextOptions cur votes).isEmpty = true then
              (eliminatedOptions cur votes).head?
            else rcwAux votes f1 (nextOptions cur votes)) =
          (if (sortedVotes cur votes).isEmpty = true then none
            else if (nextOptions cur votes).isEmpty = true then
              (eliminatedOptions cur votes).head?
            else rcwAux votes f2' (nextOptions cur votes))
        rw [if_neg (sortedVotes_not_isEmpty votes hne),
          if_neg (sortedVotes_not_isEmpty votes hne)]
        by_cases hn : (nextOptions cur votes).isEmpty = true
        · rw [if_pos hn, if_pos hn]
        · have hnne : nextOptions cur votes ≠ [] := fun hnil => hn (by rw [hnil]; rfl)
          have hlt := nextOptions_length_lt votes hne
          rw [if_neg hn, if_neg hn, ih f2' (nextOptions cur votes) hnne (by omega) (by omega)]

/-- The loop result depends on the ballot list only through the tallies it
induces on subsets of the catalog and through the total ballot count. -/
theorem rcwAux_congr (opts : List α) (v1 v2 : List (List α))
    (hl : v1.length = v2.length)
    (ht : ∀ cur, cur ⊆ opts → ∀ c, firstPlaceVotes cur v1 c = firstPlaceVotes cur v2 c) :
    ∀ fuel cur, cur ⊆ opts → rcwAux v1 fuel cur = rcwAux v2 fuel cur := by
  intro fuel
  induction fuel with
  | zero =>
    intro cur _
    rfl
  | succ fuel ih =>
    intro cur hsub
    have hfun : firstPlaceVotes cur v1 = firstPlaceVotes cur v2 := funext (ht cur hsub)
    have hrw : roundWinner cur v1 = roundWinner cur v2 := by
      unfold roundWinner majorityThreshold
      rw [hfun, hl]
    have hsv : sortedVotes cur v1 = sortedVotes cur v2 := by
      unfold sortedVotes entries
      rw [hfun]
    have hlow : lowestVoteCount cur v1 = lowestVoteCount cur v2 := by
      unfold lowestVoteCount
      rw [hsv]
    have helim : eliminatedOptions cur v1 = eliminatedOptions cur v2 := by
      unfold eliminatedOptions
      rw [hsv, hlow]
    have hnext : nextOptions cur v1 = nextOptions cur v2 := by
      unfold nextOptions
      rw [helim]
    have hrec := ih (nextOptions cur v2)
      (fun a ha => hsub (nextOptions_subset cur v2 ha))
    rw [rcwAux, rcwAux, hrw, hsv, hnext, helim, hrec]

theorem isEmpty_eq_of_length_eq {β γ : Type} {l1 : List β} {l2 : List γ}
    (h : l1.length = l2.length) : l1.isEmpty = l2.isEmpty := by
  cases l1 <;> cases l2 <;> first | rfl | simp at h

theorem not_isEmpty_of_ne_nil {β : Type} {l : List β} (h : l ≠ []) : ¬(l.isEmpty = true) :=
  fun hi => h (List.isEmpty_iff.mp hi)

/-! The specification claims. -/

/-- C6: for every candidate catalog (of any size, the empty one included),
tabulating an empty ballot list returns the "no votes" sentinel — never a
candidate identifier and never an error. -/
theorem claim6_empty_ballots_sentinel (opts : List α) :
    calculateRankedChoiceWinner opts ([] : List (List α)) = some TabulationResult.noVotes :=
  rfl

/-- C7 counterexample: on the empty catalog with a non-empty ballot list the
function does not return a `TabulationResult` — it throws (`sortedVotes[0]` is
`undefined`), modelled by `none`.  This refutes totality for every well-typed
input. -/
theorem claim7_counterexample :
    calculateRankedChoiceWinner ([] : List String) [["A"]] = none := by
  decide

/-- C7 (amended): the function is total — always returns a `TabulationResult`,
never throws — for every input whose catalog is non-empty, and also for an
empty catalog when the ballot list is empty; with an empty catalog and
non-empty ballots it throws a TypeError. -/
theorem claim7_total_amended (opts : List α) (votes : List (List α))
    (h : opts ≠ [] ∨ votes = []) :
    (calculateRankedChoiceWinner opts votes).isSome = true := by
  rcases h with h | rfl
  · unfold calculateRankedChoiceWinner
    by_cases hv : votes.isEmpty = true
    · rw [if_pos hv]
      rfl
    · rw [if_neg hv]
      obtain ⟨w, hw, _⟩ := rcwAux_total_mem votes (opts.length + 1) opts h (by omega)
      rw [hw]
      rfl
  · rfl

theorem claim7_witness :
    (calculateRankedChoiceWinner (["A"] : List String) [["B"]]).isSome = true :=
  claim7_total_amended ["A"] [["B"]] (Or.inl (by decide))

/-- C1: for every non-empty catalog and non-empty ballot list the function
returns exactly one winner drawn from the original catalog — never the
sentinel and never an identifier outside the catalog — even though the loop
works on a shrinking working set. -/
theorem claim1_winner_from_original_catalog (opts : List α) (votes : List (List α))
    (h1 : opts ≠ []) (h2 : votes ≠ []) :
    ∃ w, calculateRankedChoiceWinner opts votes = some (TabulationResult.winner w) ∧
      w ∈ opts := by
  obtain ⟨w, hw, hmem⟩ := rcwAux_total_mem votes (opts.length + 1) opts h1 (by omega)
  refine ⟨w, ?_, hmem⟩
  unfold calculateRankedChoiceWinner
  rw [if_neg (not_isEmpty_of_ne_nil h2), hw]
  rfl

theorem claim1_witness :
    calculateRankedChoiceWinner ["A"] [["A"]] = some (TabulationResult.winner "A") := by
  obtain ⟨w, hw, hmem⟩ :=
    claim1_winner_from_original_catalog ["A"] [["A"]] (by decide) (by decide)
  have hww : w = "A" := List.mem_singleton.mp hmem
  rw [hww] at hw
  exact hw

/-- C8: the elimination loop terminates for every non-empty catalog and
non-empty ballot list: every round strictly shrinks a non-empty working set,
so fuel `|opts|` (at most `|opts|` iterations) already yields the final
winner, and any larger fuel returns the same winner. -/
theorem claim8_termination_bound (opts : List α) (votes : List (List α))
    (h1 : opts ≠ []) (h2 : votes ≠ []) :
    (∀ cur : List α, cur ≠ [] → (nextOptions cur votes).length < cur.length) ∧
    ∃ w, calculateRankedChoiceWinner opts votes = some (TabulationResult.winner w) ∧
      ∀ fuel, opts.length ≤ fuel → rcwAux votes fuel opts = some w := by
  refine ⟨fun cur hc => nextOptions_length_lt votes hc, ?_⟩
  obtain ⟨w, hw, _⟩ := rcwAux_total_mem votes opts.length opts h1 le_rfl
  refine ⟨w, ?_, fun fuel hf => ?_⟩
  · unfold calculateRankedChoiceWinner
    rw [if_neg (not_isEmpty_of_ne_nil h2),
      ← rcwAux_fuel_le votes opts.length (opts.length + 1) opts h1 le_rfl (by omega), hw]
    rfl
  · rw [← rcwAux_fuel_le votes opts.length fuel opts h1 le_rfl hf]
    exact hw

theorem claim8_witness :
    (nextOptions ["A", "B"] [["A"], ["B"]]).length < (["A", "B"] : List String).length ∧
    (calculateRankedChoiceWinner ["A", "B"] [["A"], ["B"]]).isSome = true := by
  have h := claim8_termination_bound ["A", "B"] [["A"], ["B"]] (by decide) (by decide)
  refine ⟨h.1 ["A", "B"] (by decide), ?_⟩
  obtain ⟨w, hw, _⟩ := h.2
  rw [hw]
  rfl

/-- C2: in a tally round a working-set candidate is declared winner by the
majority scan exactly when its tally strictly exceeds `totalBallots / 2` under
real division (so a tally of exactly half does not win); that rational
comparison coincides with the integer comparison `totalBallots < 2 · tally`;
at most one candidate can exceed the threshold, so the scan order over the
working set never affects the returned candidate; and a scan winner is
returned immediately by the loop. -/
theorem claim2_strict_majority_round (cur : List α) (votes : List (List α)) (c : α)
    (hc : c ∈ cur) :
    (roundWinner cur votes = some c ↔
      (firstPlaceVotes cur votes c : ℚ) > majorityThreshold votes) ∧
    ((firstPlaceVotes cur votes c : ℚ) > majorityThreshold votes ↔
      votes.length < 2 * firstPlaceVotes cur votes c) ∧
    ((firstPlaceVotes cur votes c : ℚ) = majorityThreshold votes →
      roundWinner cur votes ≠ some c) ∧
    (∀ c' : α, votes.length < 2 * firstPlaceVotes cur votes c' →
      votes.length < 2 * firstPlaceVotes cur votes c → c' = c) ∧
    (∀ fuel : Nat, cur.length ≠ 1 → roundWinner cur votes = some c →
      rcwAux votes (fuel + 1) cur = some c) := by
  have hbridge : ∀ a : α, (firstPlaceVotes cur votes a : ℚ) > majorityThreshold votes ↔
      votes.length < 2 * firstPlaceVotes cur votes a := by
    intro a
    unfold majorityThreshold
    exact cast_gt_half_iff _ _
  have huniq : ∀ a b : α, votes.length < 2 * firstPlaceVotes cur votes a →
      votes.length < 2 * firstPlaceVotes cur votes b → a = b := by
    intro a b ha hb
    by_contra hab
    have hdisj : ∀ v : List α, ¬(decide (firstChoice cur v = some a) = true ∧
        decide (firstChoice cur v = some b) = true) := by
      intro v hv
      obtain ⟨hv1, hv2⟩ := hv
      rw [decide_eq_true_eq] at hv1 hv2
      rw [hv1] at hv2
      exact hab (Option.some.inj hv2)
    have hle := countP_add_countP_le_length votes hdisj
    unfold firstPlaceVotes at ha hb
    omega
  refine ⟨⟨?_, ?_⟩, hbridge c, ?_, fun c' h' h0 => huniq c' c h' h0, ?_⟩
  · intro h
    unfold roundWinner at h
    have := List.find?_some h
    rwa [decide_eq_true_eq] at this
  · intro h
    unfold roundWinner
    have hsome : (cur.find? fun a =>
        decide ((firstPlaceVotes cur votes a : ℚ) > majorityThreshold votes)).isSome = true :=
      List.find?_isSome.mpr ⟨c, hc, by rw [decide_eq_true_eq]; exact h⟩
    obtain ⟨x, hx⟩ := Option.isSome_iff_exists.mp hsome
    have hpx := List.find?_some hx
    rw [decide_eq_true_eq] at hpx
    rw [hx, huniq x c ((hbridge x).mp hpx) ((hbridge c).mp h)]
  · intro heq hwin
    unfold roundWinner at hwin
    have := List.find?_some hwin
    rw [decide_eq_true_eq] at this
    rw [heq] at this
    exact lt_irrefl _ this
  · intro fuel h1 hwin
    rw [rcwAux, if_neg h1, hwin]

theorem claim2_witness :
    roundWinner ["A", "B"] [["A"], ["A"], ["B"]] = some "A" :=
  (claim2_strict_majority_round ["A", "B"] [["A"], ["A"], ["B"]] "A" (by decide)).1.mpr
    (by unfold majorityThreshold; rw [cast_gt_half_iff]; decide)

/-- C3: in an elimination round (the majority scan found no winner on a
non-empty working set) every candidate whose tally equals the round minimum is
removed in that same round: the eliminated list is a single filter of the
working set by minimum tally, the surviving working set is the complementary
filter, and the minimum is genuinely the least tally, attained on the working
set. -/
theorem claim3_simultaneous_min_elimination (cur : List α) (votes : List (List α))
    (hne : cur ≠ []) (_hw : roundWinner cur votes = none) :
    eliminatedOptions cur votes =
      (dedupFirst cur).filter
        (fun c => firstPlaceVotes cur votes c == lowestVoteCount cur votes) ∧
    nextOptions cur votes =
      cur.filter
        (fun c => decide (firstPlaceVotes cur votes c ≠ lowestVoteCount cur votes)) ∧
    (∀ c ∈ cur, lowestVoteCount cur votes ≤ firstPlaceVotes cur votes c) ∧
    ∃ c ∈ cur, firstPlaceVotes cur votes c = lowestVoteCount cur votes :=
  ⟨eliminatedOptions_eq cur votes, nextOptions_eq cur votes,
    lowestVoteCount_le votes hne, lowestVoteCount_attained votes hne⟩

theorem claim3_witness :
    nextOptions ["A", "B", "C"] [["A"], ["B"]] =
      List.filter
        (fun c => decide (firstPlaceVotes ["A", "B", "C"] [["A"], ["B"]] c ≠
          lowestVoteCount ["A", "B", "C"] [["A"], ["B"]])) ["A", "B", "C"] :=
  (claim3_simultaneous_min_elimination ["A", "B", "C"] [["A"], ["B"]] (by decide)
    (by rw [← roundWinnerN_eq]; decide)).2.1

/-- C4: when an elimination round removes every remaining working-set
candidate (all tied at the minimum tally), the function does not fail: it
returns the head of the eliminated list — the first candidate in
tally-ascending, then catalog, order as produced by the elimination step,
i.e. the first catalog-order candidate among those tied at the minimum. -/
theorem claim4_empty_workingset_fallback (cur : List α) (votes : List (List α)) (fuel : Nat)
    (h1 : cur.length ≠ 1) (hw : roundWinner cur votes = none)
    (hempty : nextOptions cur votes = []) (hne : cur ≠ []) (hv : votes ≠ []) :
    ∃ w tl, eliminatedOptions cur votes = w :: tl ∧
      rcwAux votes (fuel + 1) cur = some w ∧
      calculateRankedChoiceWinner cur votes = some (TabulationResult.winner w) ∧
      (dedupFirst cur).filter
        (fun c => firstPlaceVotes cur votes c == lowestVoteCount cur votes) = w :: tl := by
  obtain ⟨w, tl, helim, _⟩ := eliminatedOptions_cons votes hne
  have hrc : ∀ f : Nat, rcwAux votes (f + 1) cur = some w := by
    intro f
    rw [rcwAux, if_neg h1, hw]
    show (if (sortedVotes cur votes).isEmpty = true then none
        else if (nextOptions cur votes).isEmpty = true then (eliminatedOptions cur votes).head?
        else rcwAux votes f (nextOptions cur votes)) = some w
    rw [if_neg (sortedVotes_not_isEmpty votes hne), if_pos (by rw [hempty]; rfl), helim]
    rfl
  refine ⟨w, tl, helim, hrc fuel, ?_, by rw [← eliminatedOptions_eq]; exact helim⟩
  unfold calculateRankedChoiceWinner
  rw [if_neg (not_isEmpty_of_ne_nil hv), hrc cur.length]
  rfl

theorem claim4_witness :
    calculateRankedChoiceWinner ["A", "B"] [["A", "B"], ["B", "A"]] =
      some (TabulationResult.winner "A") := by
  obtain ⟨w, tl, helim, _, hcalc, _⟩ :=
    claim4_empty_workingset_fallback ["A", "B"] [["A", "B"], ["B", "A"]] 0 (by decide)
      (by rw [← roundWinnerN_eq]; decide) (by decide) (by decide) (by decide)
  have hconc : eliminatedOptions ["A", "B"] [["A", "B"], ["B", "A"]] = ["A", "B"] := by decide
  rw [hconc] at helim
  injection helim with hwa _
  rw [← hwa] at hcalc
  exact hcalc

/-- C5: a ballot that is exhausted in some round — none of its ranked entries
lies in that round's working set — contributes to no tally in that round or in
any later round (whose working sets are subsets of it), yet it still counts in
the denominator of the majority threshold: every round of the enlarged
election compares tallies against `(totalBallots + 1) / 2`, never against the
count of still-contributing ballots. -/
theorem claim5_threshold_not_reduced (cur : List α) (votes : List (List α)) (b : List α)
    (hex : ∀ x ∈ b, x ∉ cur) :
    firstChoice cur b = none ∧
    (∀ cur', cur' ⊆ cur → ∀ c,
      firstPlaceVotes cur' (votes ++ [b]) c = firstPlaceVotes cur' votes c) ∧
    majorityThreshold (votes ++ [b]) = majorityThreshold votes + 1 / 2 ∧
    (∀ cur', cur' ⊆ cur → roundWinner cur' (votes ++ [b]) =
      cur'.find? fun c => decide (votes.length + 1 < 2 * firstPlaceVotes cur' votes c)) := by
  have hfc : ∀ cur' : List α, cur' ⊆ cur → firstChoice cur' b = none := by
    intro cur' hsub
    unfold firstChoice
    rw [List.find?_eq_none]
    intro x hx hd
    rw [decide_eq_true_eq] at hd
    exact hex x hx (hsub hd)
  have ht : ∀ cur' : List α, cur' ⊆ cur → ∀ c,
      firstPlaceVotes cur' (votes ++ [b]) c = firstPlaceVotes cur' votes c := by
    intro cur' hsub c
    unfold firstPlaceVotes
    rw [List.countP_append]
    have hz : List.countP (fun v => decide (firstChoice cur' v = some c)) [b] = 0 := by
      simp [List.countP_cons, hfc cur' hsub]
    rw [hz]
    omega
  have hth : majorityThreshold (votes ++ [b]) = majorityThreshold votes + 1 / 2 := by
    unfold majorityThreshold
    rw [List.length_append, List.length_singleton]
    push_cast
    ring
  refine ⟨hfc cur (List.Subset.refl _), ht, hth, ?_⟩
  intro cur' hsub
  unfold roundWinner
  apply find?_congr_mem
  intro a _
  apply decide_eq_decide.mpr
  rw [ht cur' hsub a]
  unfold majorityThreshold
  rw [List.length_append, List.length_singleton]
  exact cast_gt_half_iff _ _

theorem claim5_witness :
    firstPlaceVotes ["A", "B"] ([["A"], ["B"]] ++ [["C"]]) "A" =
      firstPlaceVotes ["A", "B"] [["A"], ["B"]] "A" ∧
    firstChoice ["A", "B"] ["C"] = none :=
  have h := claim5_threshold_not_reduced ["A", "B"] [["A"], ["B"]] ["C"] (by decide)
  ⟨h.2.1 ["A", "B"] (List.Subset.refl _) "A", h.1⟩

/-- C9: the function is deterministic and depends only on the ballot
multiset: permuting the ballot list never changes the result, including in
rounds decided by the tie-break / fallback rule. -/
theorem claim9_ballot_multiset_determinism (opts : List α) (v1 v2 : List (List α))
    (h : v1.Perm v2) :
    calculateRankedChoiceWinner opts v1 = calculateRankedChoiceWinner opts v2 := by
  unfold calculateRankedChoiceWinner
  have hl : v1.length = v2.length := h.length_eq
  rw [isEmpty_eq_of_length_eq hl,
    rcwAux_congr opts v1 v2 hl (fun cur _ c => h.countP_eq _) (opts.length + 1) opts
      (List.Subset.refl _)]

theorem claim9_witness :
    calculateRankedChoiceWinner ["A", "B"] [["A", "B"], ["B", "A"]] =
      calculateRankedChoiceWinner ["A", "B"] [["B", "A"], ["A", "B"]] :=
  claim9_ballot_multiset_determinism ["A", "B"] _ _ (by decide)

/-- C10: malformed ballots never make the function fail: entries outside the
original catalog are inert (erasing them from every ballot leaves the result
unchanged), a duplicated ballot entry is matched on its first occurrence only,
a ballot tallies exactly its first entry that lies in the working set, and on
a non-empty catalog the function still returns a result. -/
theorem claim10_malformed_ballots_tolerated (opts : List α) (votes : List (List α))
    (hopts : opts ≠ []) :
    calculateRankedChoiceWinner opts
        (votes.map fun v => v.filter fun x => decide (x ∈ opts)) =
      calculateRankedChoiceWinner opts votes ∧
    (∀ cur v : List α, firstChoice cur (dedupFirst v) = firstChoice cur v) ∧
    (∀ (cur v : List α) (c : α),
      firstPlaceVotes cur (v :: votes) c =
        firstPlaceVotes cur votes c + (if firstChoice cur v = some c then 1 else 0)) ∧
    (calculateRankedChoiceWinner opts votes).isSome = true := by
  refine ⟨?_, fun cur v => find?_dedupFirst _ v, ?_, ?_⟩
  · have hlen : (votes.map fun v => v.filter fun x => decide (x ∈ opts)).length =
        votes.length := List.length_map _ _
    have ht : ∀ cur, cur ⊆ opts → ∀ c,
        firstPlaceVotes cur (votes.map fun v => v.filter fun x => decide (x ∈ opts)) c =
          firstPlaceVotes cur votes c := by
      intro cur hsub c
      unfold firstPlaceVotes
      rw [List.countP_map]
      have hfun : ((fun v => decide (firstChoice cur v = some c)) ∘
          fun v : List α => v.filter fun x => decide (x ∈ opts)) =
          fun v : List α => decide (firstChoice cur v = some c) := by
        funext v
        simp only [Function.comp_apply]
        have hfc : firstChoice cur (v.filter fun x => decide (x ∈ opts)) =
            firstChoice cur v := by
          unfold firstChoice
          apply find?_filter_of_imp
          intro a ha
          rw [decide_eq_true_eq] at ha ⊢
          exact hsub ha
        rw [hfc]
      rw [hfun]
    unfold calculateRankedChoiceWinner
    rw [isEmpty_eq_of_length_eq hlen,
      rcwAux_congr opts _ votes hlen ht (opts.length + 1) opts (List.Subset.refl _)]
  · intro cur v c
    unfold firstPlaceVotes
    rw [List.countP_cons]
    by_cases hfc : firstChoice cur v = some c <;> simp [hfc]
  · unfold calculateRankedChoiceWinner
    by_cases hv : votes.isEmpty = true
    · rw [if_pos hv]
      rfl
    · rw [if_neg hv]
      obtain ⟨w, hw, _⟩ := rcwAux_total_mem votes (opts.length + 1) opts hopts (by omega)
      rw [hw]
      rfl

theorem claim10_witness :
    calculateRankedChoiceWinner ["A", "B"]
        ([["C", "A"], ["B"]].map fun v => v.filter fun x =>
          decide (x ∈ (["A", "B"] : List String))) =
      calculateRankedChoiceWinner ["A", "B"] [["C", "A"], ["B"]] :=
  (claim10_malformed_ballots_tolerated ["A", "B"] [["C", "A"], ["B"]] (by decide)).1

/- Sanity checks: the worked examples of spec §8. -/

example :
    calculateRankedChoiceWinner ["A", "B", "C"] [["A","B","C"], ["A","C","B"], ["B","A","C"]] =
      some (TabulationResult.winner "A") := by
  rw [← calculateRankedChoiceWinnerN_eq]; decide

example :
    calculateRankedChoiceWinner ["A", "B", "C"]
      [["A","B","C"], ["B","A","C"], ["C","B","A"], ["C","A","B"]] =
      some (TabulationResult.winner "C") := by
  rw [← calculateRankedChoiceWinnerN_eq]; decide

example :
    calculateRankedChoiceWinner ["A", "B"] [["A","B"], ["B","A"]] =
      some (TabulationResult.winner "A") := by
  rw [← calculateRankedChoiceWinnerN_eq]; decide

example :
    calculateRankedChoiceWinner ["A", "B", "C"] ([] : List (List String)) =
      some TabulationResult.noVotes := by decide

example :
    calculateRankedChoiceWinner ([] : List String) [["A"]] = none := by decide

end RankVote
